import Mathlib

/-!
# Game of Life over MPI (`gol.c`): embedding and checked properties

The C program is embedded as follows.

* A board (`cell_t **`) is a list of rows, each row a list of cells
  (`cell_t` is `unsigned char`, embedded as `Nat`).  Indices and sizes are C
  `int`s, embedded as `Int`.  An access `board[k][l]` outside the board is a
  fault: the embedded function returns `none`.
* `adjacent_to` and `play` follow the loops of the source: the iteration
  space of a loop nest is the list of index pairs it visits, in order.
* `master` is embedded by its arithmetic (`master_setup`: the clamp of
  `num_proc`, `lines`, `reminder`, `last`) and by the descriptors of the
  messages it posts in one generation (destination rank, first row index,
  element count).  A division by zero is a fault (`none`).
* `slave` is embedded by its band height (`slave_lines`), by the number of
  rows of `size` cells its blocks `prev` and `next` can hold
  (`slave_block_rows`) and by the element count of the message it sends back.
  Its call `play(prev, next, size, lines+2, 1, lines)` is evaluated with `play`
  on the content of a block read as rows of `size` cells.  The blocks
  themselves are flat (lines 134-135 store no row pointer in them) and line 147
  receives at `&prev`; the embedding does not represent this layout, so a
  result `some` of such an evaluation says what the loop nest computes on the
  rows, not that the call of the program returns.
* `int` arithmetic is embedded without wrap-around: the development is about
  runs in which `(size + 2) * size`, the largest value computed, is below
  `2^31`.
-/

namespace GolMpi

/-! ## Data model -/

/-- A board is a list of rows of cells (`cell_t ** board`). -/
abbrev Board := List (List Nat)

/-- The values taken by `for (k = lo; k < hi; k++)`, in order. -/
def intRange (lo hi : Int) : List Int :=
  (List.range (hi - lo).toNat).map (fun (n : Nat) => lo + (n : Int))

/-- The read `board[k][l]`; `none` when the cell is outside the board. -/
def cellAt (board : Board) (k l : Int) : Option Nat :=
  if 0 ≤ k ∧ 0 ≤ l then
    match board[k.toNat]? with
    | none => none
    | some row => row[l.toNat]?
  else none

/-- The write `board[k][l] = v`; `none` when the cell is outside the board. -/
def setCell (board : Board) (k l : Int) (v : Nat) : Option Board :=
  if 0 ≤ k ∧ 0 ≤ l then
    match board[k.toNat]? with
    | none => none
    | some row =>
      if l.toNat < row.length then some (board.set k.toNat (row.set l.toNat v))
      else none
  else none

/-- A board of `rows` rows of `cols` cells each. -/
def HasShape (board : Board) (rows cols : Int) : Prop :=
  (board.length : Int) = rows ∧ ∀ row ∈ board, (row.length : Int) = cols

/-- Every cell of the board is 0 or 1. -/
def Binary (board : Board) : Prop :=
  ∀ row ∈ board, ∀ c ∈ row, c = 0 ∨ c = 1

/-! ## `adjacent_to` (gol.c, lines 173-187) -/

/-- First and last index of the clamped window around `i`:
`(i>0) ? i-1 : i` and `(i+1 < size) ? i+1 : i`. -/
def windowLo (i : Int) : Int := if i > 0 then i - 1 else i

/-- Upper end of the window: `(i+1 < size) ? i+1 : i`. -/
def windowHi (size i : Int) : Int := if i + 1 < size then i + 1 else i

/-- The cells visited by the loop nest
`for (k=sk; k<=ek; k++) for (l=sl; l<=el; l++)` of `adjacent_to`, in order. -/
def window (size i j : Int) : List (Int × Int) :=
  List.product (intRange (windowLo i) (windowHi size i + 1))
    (intRange (windowLo j) (windowHi size j + 1))

/-- The accumulation `count += board[k][l]` over the visited cells. -/
def sumCells (board : Board) : Int → List (Int × Int) → Option Int
  | count, [] => some count
  | count, (k, l) :: rest =>
    match cellAt board k l with
    | none => none
    | some v => sumCells board (count + (v : Int)) rest

/-- The function `adjacent_to (board, size, i, j)`: the sum of the cells of the
clamped window, minus `board[i][j]`. -/
def adjacent_to (board : Board) (size i j : Int) : Option Int :=
  match sumCells board 0 (window size i j) with
  | none => none
  | some count =>
    match cellAt board i j with
    | none => none
    | some c => some (count - (c : Int))

/-! ## `play` (gol.c, lines 189-201) -/

/-- The cells `(i, j)` visited by
`for (i=start; i<end; i++) for (j=0; j<size; j++)`, in order. -/
def play_cells (size start end_ : Int) : List (Int × Int) :=
  List.product (intRange start end_) (intRange 0 size)

/-- The body of the loop nest of `play` at cell `(i, j)`: the four `if`
statements, in the order of the source. -/
def play_cell (board newboard : Board) (size i j : Int) : Option Board :=
  match adjacent_to board size i j with
  | none => none
  | some a =>
    let s1 : Option Board :=
      if a = 2 then
        match cellAt board i j with
        | none => none
        | some c => setCell newboard i j c
      else some newboard
    let s2 : Option Board := s1.bind (fun nb => if a = 3 then setCell nb i j 1 else some nb)
    let s3 : Option Board := s2.bind (fun nb => if a < 2 then setCell nb i j 0 else some nb)
    s3.bind (fun nb => if a > 3 then setCell nb i j 0 else some nb)

/-- The loop nest of `play` over a list of cells. -/
def play_loop (board : Board) (size : Int) : Board → List (Int × Int) → Option Board
  | newboard, [] => some newboard
  | newboard, (i, j) :: rest =>
    match play_cell board newboard size i j with
    | none => none
    | some nb => play_loop board size nb rest

/-- The function `play (board, newboard, size, lines, start, end)`; the result is
the content of `newboard` after the call.  The parameter `lines` is unused, as
in the source. -/
def play (board newboard : Board) (size _lines start end_ : Int) : Option Board :=
  play_loop board size newboard (play_cells size start end_)

/-! ## `master` (gol.c, lines 28-120) -/

/-- The values `master` computes before the generation loop. -/
structure Setup where
  /-- The process count after the clamp of lines 55-57. -/
  num_proc : Int
  /-- `lines = size/(num_proc-1)`. -/
  lines : Int
  /-- `reminder = size%(num_proc-1)`. -/
  reminder : Int
  /-- `last = lines + reminder`. -/
  last : Int
deriving DecidableEq

/-- Lines 53-70 of `master`: `comm_size` is the value `MPI_Comm_size` stores
in `num_proc`.  No statement between reading `size` and the two divisions can
leave the function; the only fault is the division by zero (`none`).  C
division truncates toward zero. -/
def master_setup (size comm_size : Int) : Option Setup :=
  let num_proc := if comm_size > size + 1 then size + 1 else comm_size
  if num_proc - 1 = 0 then none
  else
    let lines := Int.tdiv size (num_proc - 1)
    let reminder := Int.tmod size (num_proc - 1)
    some ⟨num_proc, lines, reminder, lines + reminder⟩

/-- A posted message: the peer rank, the index `k` of its buffer `&prev[k]`
and its element count. -/
structure Transfer where
  /-- Destination (of a send) or source (of a receive). -/
  rank : Int
  /-- The index `k` in the buffer argument `&prev[k]`. -/
  first_row : Int
  /-- The element count argument. -/
  count : Int
deriving DecidableEq

/-- The three groups of `MPI_Isend` of one generation (lines 81-87), in
program order. -/
def master_sends (size : Int) (s : Setup) : List Transfer :=
  [⟨1, 0, (s.lines + 1) * size⟩]
    ++ (intRange 2 (s.num_proc - 1)).map
        (fun i => ⟨i, i * s.lines - 1, (s.lines + 2) * size⟩)
    ++ [⟨s.num_proc - 1, (s.num_proc - 1) * s.lines, (s.lines + 1) * size⟩]

/-- The three groups of `MPI_Irecv` of one generation (lines 92-98), in
program order. -/
def master_recvs (size : Int) (s : Setup) : List Transfer :=
  [⟨1, 0, (s.lines + 1) * size⟩]
    ++ (intRange 2 (s.num_proc - 1)).map
        (fun i => ⟨i, i * s.lines - 1, (s.lines + 2) * size⟩)
    ++ [⟨s.num_proc - 1, (s.num_proc - 1) * s.lines, (s.lines + 1) * size⟩]

/-- The transfers addressed to one rank. -/
def transfers_of (rank : Int) (ts : List Transfer) : List Transfer :=
  ts.filter (fun t => t.rank = rank)

/-- The half-open row range `[first, first + count/size)` a transfer covers. -/
def row_range (size : Int) (t : Transfer) : Int × Int :=
  (t.first_row, t.first_row + Int.tdiv t.count size)

/-! ## `slave` (gol.c, lines 122-154) -/

/-- The value of `lines` in `slave` when its loop starts: the broadcast value,
replaced by `last` on the rank `num_proc-1` (lines 130, 139-141).  In `slave`,
`num_proc` is the unclamped `MPI_Comm_size`. -/
def slave_lines (s : Setup) (comm_size rank : Int) : Int :=
  if rank = comm_size - 1 then s.last else s.lines

/-- The element count of the `MPI_Send` of line 151. -/
def slave_send_count (size lines : Int) : Int := (lines + 2) * size

/-! ## Access footprints -/

/-- The cells of `board` that `adjacent_to` reads: the window, then `(i, j)`. -/
def adjacent_to_reads (size i j : Int) : List (Int × Int) :=
  window size i j ++ [(i, j)]

/-- The cells of `newboard` that `play` writes. -/
def play_writes (size start end_ : Int) : List (Int × Int) :=
  play_cells size start end_

/-- The rows of `newboard` that `play` writes. -/
def play_rows (size start end_ : Int) : List Int :=
  ((play_writes size start end_).map Prod.fst).dedup

/-! ## Vocabulary of the specification -/

/-- The value of the cell `(k, l)`, and 0 outside the board. -/
def cellVal (board : Board) (k l : Int) : Nat := (cellAt board k l).getD 0

/-- The neighbours of `(i, j)` in a `size` x `size` grid: the cells `(k, l)` of
the grid with `|k - i| ≤ 1`, `|l - j| ≤ 1` and `(k, l) ≠ (i, j)`. -/
def neighbours (size i j : Int) : List (Int × Int) :=
  (List.product (intRange 0 size) (intRange 0 size)).filter
    (fun c => decide (|c.1 - i| ≤ 1 ∧ |c.2 - j| ≤ 1 ∧ c ≠ (i, j)))

/-- The number of alive neighbours of `(i, j)`. -/
def alive_neighbours (board : Board) (size i j : Int) : Nat :=
  ((neighbours size i j).filter (fun c => decide (cellAt board c.1 c.2 = some 1))).length

/-- The cell `(i, j)` is one of the four corners of the grid. -/
def IsCorner (size i j : Int) : Prop :=
  (i = 0 ∨ i = size - 1) ∧ (j = 0 ∨ j = size - 1)

/-- The cell `(i, j)` is on the edge of the grid. -/
def IsEdge (size i j : Int) : Prop :=
  0 ≤ i ∧ i < size ∧ 0 ≤ j ∧ j < size ∧ (i = 0 ∨ i = size - 1 ∨ j = 0 ∨ j = size - 1)

/-- The height of the band of worker `w` (rank `w + 1`) among the workers of
`s`: `lines`, and `last` for the last worker. -/
def band_height (s : Setup) (w : Nat) : Int :=
  slave_lines s s.num_proc ((w : Int) + 1)

/-- The first row of the band of worker `w` when the bands are laid end to end
in rank order from row 0. -/
def band_start (s : Setup) (w : Nat) : Int :=
  ((List.range w).map (band_height s)).sum

/-- The row after the last row of the band of worker `w`. -/
def band_end (s : Setup) (w : Nat) : Int :=
  band_start s w + band_height s w

/-- The rows of the ghosted tile of worker `w` that hold its own band: the
rows after the top ghost row, when there is one. -/
def own_rows (s : Setup) (w : Nat) : List Int :=
  let top : Int := if band_start s w = 0 then 0 else 1
  intRange top (top + band_height s w)

/-- The sequential kernel: `play` over all rows `0 .. size-1`, `steps` times,
each generation written to a fresh board and made the current one. -/
def sequential (size : Int) : Nat → Board → Option Board
  | 0, board => some board
  | steps + 1, board =>
    match play board board size size 0 size with
    | none => none
    | some nb => sequential size steps nb

/-! ## Loop ranges -/

theorem mem_intRange (lo hi x : Int) : x ∈ intRange lo hi ↔ lo ≤ x ∧ x < hi := by
  unfold intRange
  simp only [List.mem_map, List.mem_range]
  constructor
  · rintro ⟨n, hn, rfl⟩
    omega
  · rintro ⟨h1, h2⟩
    exact ⟨(x - lo).toNat, by omega, by omega⟩

theorem nodup_intRange (lo hi : Int) : (intRange lo hi).Nodup := by
  unfold intRange
  refine List.Nodup.map ?_ (List.nodup_range _)
  intro a b h
  simp only at h
  omega

theorem length_intRange (lo hi : Int) : (intRange lo hi).length = (hi - lo).toNat := by
  simp [intRange]

theorem mem_window (size i j k l : Int) :
    (k, l) ∈ window size i j ↔
      (windowLo i ≤ k ∧ k ≤ windowHi size i) ∧ (windowLo j ≤ l ∧ l ≤ windowHi size j) := by
  unfold window
  rw [List.pair_mem_product, mem_intRange, mem_intRange]
  constructor <;> rintro ⟨⟨a, b⟩, c, d⟩ <;> exact ⟨⟨a, by omega⟩, c, by omega⟩

theorem nodup_window (size i j : Int) : (window size i j).Nodup :=
  List.Nodup.product (nodup_intRange _ _) (nodup_intRange _ _)

theorem mem_play_cells (size start end_ i j : Int) :
    (i, j) ∈ play_cells size start end_ ↔ (start ≤ i ∧ i < end_) ∧ (0 ≤ j ∧ j < size) := by
  unfold play_cells
  rw [List.pair_mem_product, mem_intRange, mem_intRange]

/-! ## Reading and writing cells -/

theorem cellAt_some_of_shape {board : Board} {rows cols k l : Int}
    (hs : HasShape board rows cols) (hk0 : 0 ≤ k) (hk : k < rows) (hl0 : 0 ≤ l)
    (hl : l < cols) : ∃ v, cellAt board k l = some v := by
  obtain ⟨hlen, hrow⟩ := hs
  have hk1 : k.toNat < board.length := by omega
  have hmem : board[k.toNat] ∈ board := List.getElem_mem _
  have hl1 : l.toNat < (board[k.toNat]).length := by
    have := hrow _ hmem
    omega
  refine ⟨(board[k.toNat])[l.toNat], ?_⟩
  unfold cellAt
  rw [if_pos ⟨hk0, hl0⟩, List.getElem?_eq_getElem hk1]
  simp [List.getElem?_eq_getElem hl1]

theorem cellAt_binary {board : Board} {k l : Int} {v : Nat} (hb : Binary board)
    (h : cellAt board k l = some v) : v = 0 ∨ v = 1 := by
  unfold cellAt at h
  split at h
  · split at h
    · exact absurd h (by simp)
    · rename_i row hrow
      exact hb row (List.getElem?_mem hrow) v (List.getElem?_mem h)
  · exact absurd h (by simp)

theorem cellAt_inside {board : Board} {rows cols k l : Int} {v : Nat}
    (hs : HasShape board rows cols) (h : cellAt board k l = some v) :
    (0 ≤ k ∧ k < rows) ∧ (0 ≤ l ∧ l < cols) := by
  obtain ⟨hlen, hrow⟩ := hs
  unfold cellAt at h
  split at h
  · rename_i hkl
    split at h
    · exact absurd h (by simp)
    · rename_i row hr
      have h1 := (List.getElem?_eq_some_iff.1 hr).1
      have h2 := (List.getElem?_eq_some_iff.1 h).1
      have h3 := hrow row (List.getElem?_mem hr)
      omega
  · exact absurd h (by simp)

/-- Writing inside a board succeeds, keeps the shape, stores the value and
leaves every other cell as it was. -/
theorem setCell_spec {board : Board} {rows cols k l : Int} (v : Nat)
    (hs : HasShape board rows cols) (hk0 : 0 ≤ k) (hk : k < rows) (hl0 : 0 ≤ l)
    (hl : l < cols) :
    ∃ nb, setCell board k l v = some nb ∧ HasShape nb rows cols ∧
      cellAt nb k l = some v ∧
      ∀ k2 l2 : Int, (k2, l2) ≠ (k, l) → cellAt nb k2 l2 = cellAt board k2 l2 := by
  obtain ⟨hlen, hrow⟩ := hs
  have hk1 : k.toNat < board.length := by omega
  have hmem : board[k.toNat] ∈ board := List.getElem_mem _
  have hl1 : l.toNat < (board[k.toNat]).length := by
    have := hrow _ hmem
    omega
  refine ⟨board.set k.toNat ((board[k.toNat]).set l.toNat v), ?_, ⟨?_, ?_⟩, ?_, ?_⟩
  · unfold setCell
    rw [if_pos ⟨hk0, hl0⟩, List.getElem?_eq_getElem hk1]
    simp [hl1]
  · simpa using hlen
  · intro row hr
    rcases List.mem_or_eq_of_mem_set hr with h | h
    · exact hrow row h
    · rw [h, List.length_set]
      exact hrow _ hmem
  · unfold cellAt
    rw [if_pos ⟨hk0, hl0⟩]
    simp [List.getElem?_set, hk1, hl1]
  · intro k2 l2 hne
    unfold cellAt
    by_cases h0 : 0 ≤ k2 ∧ 0 ≤ l2
    · rw [if_pos h0, if_pos h0]
      by_cases hk2 : k2 = k
      · subst hk2
        have hl2 : l.toNat ≠ l2.toNat := by
          intro h
          apply hne
          have : l2 = l := by omega
          rw [this]
        simp [List.getElem?_set, hk1, List.getElem?_eq_getElem hk1, hl2]
      · have : k.toNat ≠ k2.toNat := by omega
        rw [List.getElem?_set_ne this]
    · rw [if_neg h0, if_neg h0]

theorem cellAt_eq_cellVal {board : Board} {k l : Int} {v : Nat}
    (h : cellAt board k l = some v) : cellVal board k l = v := by
  simp [cellVal, h]

/-! ## `adjacent_to` -/

theorem sumCells_eq (board : Board) (cells : List (Int × Int)) :
    ∀ count : Int, (∀ c ∈ cells, ∃ v, cellAt board c.1 c.2 = some v) →
      sumCells board count cells
        = some (count + (cells.map (fun c => (cellVal board c.1 c.2 : Int))).sum) := by
  induction cells with
  | nil => intro count _; simp [sumCells]
  | cons c rest ih =>
    intro count h
    obtain ⟨k, l⟩ := c
    obtain ⟨v, hv⟩ := h (k, l) (List.mem_cons_self _ _)
    have hrest := ih (count + (v : Int)) (fun c hc => h c (List.mem_cons_of_mem _ hc))
    simp only [sumCells, hv, hrest, List.map_cons, List.sum_cons, cellAt_eq_cellVal hv]
    congr 1
    ring

theorem sumCells_some_reads (board : Board) (cells : List (Int × Int)) :
    ∀ count r : Int, sumCells board count cells = some r →
      ∀ c ∈ cells, ∃ v, cellAt board c.1 c.2 = some v := by
  induction cells with
  | nil => intro _ _ _ c hc; simp at hc
  | cons d rest ih =>
    intro count r h c hc
    obtain ⟨k, l⟩ := d
    simp only [sumCells] at h
    cases hv : cellAt board k l with
    | none => simp [hv] at h
    | some v =>
      simp only [hv] at h
      rcases List.mem_cons.1 hc with rfl | hc
      · exact ⟨v, hv⟩
      · exact ih _ _ h c hc

theorem windowLo_bounds (i : Int) : i - 1 ≤ windowLo i ∧ windowLo i ≤ i ∧ (0 ≤ i → 0 ≤ windowLo i) := by
  unfold windowLo
  split <;> omega

theorem windowHi_bounds (size i : Int) :
    i ≤ windowHi size i ∧ windowHi size i ≤ i + 1 ∧ (i < size → windowHi size i < size) := by
  unfold windowHi
  split <;> omega

/-- On a board that contains the clamped window of `(i, j)`, `adjacent_to`
returns the sum of the window minus the cell itself. -/
theorem adjacent_to_eq {board : Board} {rows cols size i j : Int}
    (hs : HasShape board rows cols) (hi0 : 0 ≤ i) (hi : windowHi size i < rows)
    (hj0 : 0 ≤ j) (hj : windowHi size j < cols) :
    adjacent_to board size i j
      = some (((window size i j).map (fun c => (cellVal board c.1 c.2 : Int))).sum
          - (cellVal board i j : Int)) := by
  have hw : ∀ c ∈ window size i j, ∃ v, cellAt board c.1 c.2 = some v := by
    rintro ⟨k, l⟩ hc
    rw [mem_window] at hc
    have := windowLo_bounds i
    have := windowLo_bounds j
    exact cellAt_some_of_shape hs (by omega) (by omega) (by omega) (by omega)
  obtain ⟨c, hc⟩ := cellAt_some_of_shape hs hi0
    (by have := windowHi_bounds size i; omega) hj0
    (by have := windowHi_bounds size j; omega)
  unfold adjacent_to
  rw [sumCells_eq board _ 0 hw]
  simp [hc, cellAt_eq_cellVal hc]

/-- The function `adjacent_to` returns a value exactly when every cell it reads is
inside the board. -/
theorem adjacent_to_some_iff (board : Board) (size i j : Int) :
    (∃ a, adjacent_to board size i j = some a) ↔
      ∀ c ∈ adjacent_to_reads size i j, ∃ v, cellAt board c.1 c.2 = some v := by
  unfold adjacent_to adjacent_to_reads
  constructor
  · rintro ⟨a, ha⟩ c hc
    cases hsum : sumCells board 0 (window size i j) with
    | none => simp [hsum] at ha
    | some r =>
      cases hij : cellAt board i j with
      | none => simp [hsum, hij] at ha
      | some v =>
        rcases List.mem_append.1 hc with hc | hc
        · exact sumCells_some_reads board _ 0 r hsum c hc
        · rw [List.mem_singleton] at hc
          subst hc
          exact ⟨v, hij⟩
  · intro h
    have hw : ∀ c ∈ window size i j, ∃ v, cellAt board c.1 c.2 = some v :=
      fun c hc => h c (List.mem_append_left _ hc)
    obtain ⟨v, hv⟩ := h (i, j) (List.mem_append_right _ (List.mem_singleton_self _))
    rw [sumCells_eq board _ 0 hw]
    simp only at hv
    simp [hv]

/-! ## `play` -/

/-- One execution of the body of `play`, inside the new board: the cell
`(i, j)` receives `board[i][j]` when `a == 2`, 1 when `a == 3` and 0 otherwise;
no other cell changes. -/
theorem play_cell_spec {board nb : Board} {rows cols size i j a : Int} {v : Nat}
    (ha : adjacent_to board size i j = some a) (hv : cellAt board i j = some v)
    (hs : HasShape nb rows cols) (hi0 : 0 ≤ i) (hi : i < rows) (hj0 : 0 ≤ j)
    (hj : j < cols) :
    ∃ nb2, play_cell board nb size i j = some nb2 ∧ HasShape nb2 rows cols ∧
      cellAt nb2 i j = some (if a = 2 then v else if a = 3 then 1 else 0) ∧
      ∀ k l : Int, (k, l) ≠ (i, j) → cellAt nb2 k l = cellAt nb k l := by
  unfold play_cell
  rw [ha]
  by_cases h2 : a = 2
  · obtain ⟨nb2, e, r⟩ := setCell_spec v hs hi0 hi hj0 hj
    refine ⟨nb2, ?_, ?_⟩
    · simp [h2, hv, e]
    · simpa [h2] using r
  · by_cases h3 : a = 3
    · obtain ⟨nb2, e, r⟩ := setCell_spec 1 hs hi0 hi hj0 hj
      refine ⟨nb2, ?_, ?_⟩
      · simp [h3, e]
      · simpa [h3] using r
    · obtain ⟨nb2, e, r⟩ := setCell_spec 0 hs hi0 hi hj0 hj
      by_cases hlt : a < 2
      · have hgt : ¬ a > 3 := by omega
        refine ⟨nb2, ?_, ?_⟩
        · simp [h2, h3, hlt, hgt, e]
        · simpa [h2, h3] using r
      · have hgt : a > 3 := by omega
        refine ⟨nb2, ?_, ?_⟩
        · simp [h2, h3, hlt, hgt, e]
        · simpa [h2, h3] using r

theorem play_loop_spec (board : Board) (rows cols size : Int) (cells : List (Int × Int)) :
    ∀ nb : Board, HasShape nb rows cols →
      (∀ c ∈ cells, (0 ≤ c.1 ∧ c.1 < rows) ∧ (0 ≤ c.2 ∧ c.2 < cols) ∧
        ∃ a, adjacent_to board size c.1 c.2 = some a) →
      ∃ nb2, play_loop board size nb cells = some nb2 ∧ HasShape nb2 rows cols ∧
        (∀ c ∈ cells, ∀ (a : Int) (v : Nat), adjacent_to board size c.1 c.2 = some a →
          cellAt board c.1 c.2 = some v →
          cellAt nb2 c.1 c.2 = some (if a = 2 then v else if a = 3 then 1 else 0)) ∧
        ∀ k l : Int, (k, l) ∉ cells → cellAt nb2 k l = cellAt nb k l := by
  induction cells with
  | nil =>
    intro nb hs _
    exact ⟨nb, rfl, hs, by simp, fun _ _ _ => rfl⟩
  | cons d rest ih =>
    intro nb hs h
    obtain ⟨i, j⟩ := d
    obtain ⟨⟨hi0, hi⟩, ⟨hj0, hj⟩, a, ha⟩ := h (i, j) (List.mem_cons_self _ _)
    obtain ⟨v, hv⟩ := (adjacent_to_some_iff board size i j).1 ⟨a, ha⟩ (i, j)
      (List.mem_append_right _ (List.mem_singleton_self _))
    obtain ⟨nb1, e1, hs1, hset1, hrest1⟩ := play_cell_spec ha hv hs hi0 hi hj0 hj
    obtain ⟨nb2, e2, hs2, hin2, hout2⟩ :=
      ih nb1 hs1 (fun c hc => h c (List.mem_cons_of_mem _ hc))
    refine ⟨nb2, ?_, hs2, ?_, ?_⟩
    · simp only [play_loop, e1, e2]
    · intro c hc a2 v2 ha2 hv2
      by_cases hmem : c ∈ rest
      · exact hin2 c hmem a2 v2 ha2 hv2
      · have hceq : c = (i, j) := by
          rcases List.mem_cons.1 hc with h0 | h0
          · exact h0
          · exact absurd h0 hmem
        subst hceq
        simp only at ha2 hv2
        rw [ha] at ha2
        rw [hv] at hv2
        cases ha2
        cases hv2
        rw [hout2 i j hmem]
        exact hset1
    · intro k l hkl
      have h1 : (k, l) ∉ rest := fun hc => hkl (List.mem_cons_of_mem _ hc)
      have h2 : (k, l) ≠ (i, j) := fun hc => hkl (by rw [hc]; exact List.mem_cons_self _ _)
      rw [hout2 k l h1, hrest1 k l h2]

/-- The function `play` on boards of `rows` rows of `size` cells, when the rows
`start .. end-1` and the rows `adjacent_to` reads around them are inside the
boards: the call returns, keeps the shape of the new board, gives every cell of
the rows `start .. end-1` its next state and leaves every other cell as it was. -/
theorem play_spec {board newboard : Board} {rows size : Int} (lines start end_ : Int)
    (hb : HasShape board rows size) (hn : HasShape newboard rows size)
    (hstart : 0 ≤ start) (hend : end_ ≤ rows) (hclamp : end_ < size → end_ < rows) :
    ∃ nb, play board newboard size lines start end_ = some nb ∧ HasShape nb rows size ∧
      (∀ i j : Int, start ≤ i → i < end_ → 0 ≤ j → j < size →
        ∃ (a : Int) (v : Nat), adjacent_to board size i j = some a ∧
          cellAt board i j = some v ∧
          cellAt nb i j = some (if a = 2 then v else if a = 3 then 1 else 0)) ∧
      ∀ k l : Int, ¬ ((start ≤ k ∧ k < end_) ∧ (0 ≤ l ∧ l < size)) →
        cellAt nb k l = cellAt newboard k l := by
  have hadj : ∀ i j : Int, start ≤ i → i < end_ → 0 ≤ j → j < size →
      ∃ a, adjacent_to board size i j = some a := by
    intro i j h1 h2 h3 h4
    refine ⟨_, adjacent_to_eq hb (by omega) ?_ h3 ?_⟩
    · unfold windowHi
      split <;> omega
    · exact (windowHi_bounds size j).2.2 h4
  obtain ⟨nb, e, hs, hin, hout⟩ := play_loop_spec board rows size size
    (play_cells size start end_) newboard hn (by
      rintro ⟨i, j⟩ hc
      rw [mem_play_cells] at hc
      exact ⟨⟨by omega, by omega⟩, ⟨hc.2.1, hc.2.2⟩, hadj i j hc.1.1 hc.1.2 hc.2.1 hc.2.2⟩)
  refine ⟨nb, e, hs, ?_, ?_⟩
  · intro i j h1 h2 h3 h4
    obtain ⟨a, ha⟩ := hadj i j h1 h2 h3 h4
    obtain ⟨v, hv⟩ := (adjacent_to_some_iff board size i j).1 ⟨a, ha⟩ (i, j)
      (List.mem_append_right _ (List.mem_singleton_self _))
    exact ⟨a, v, ha, hv, hin (i, j) ((mem_play_cells _ _ _ _ _).2 ⟨⟨h1, h2⟩, h3, h4⟩) a v ha hv⟩
  · intro k l hkl
    exact hout k l (fun hc => hkl ((mem_play_cells _ _ _ _ _).1 hc))

/-! ## The clamped window and the neighbours of a cell -/

theorem mem_neighbours (size i j k l : Int) :
    (k, l) ∈ neighbours size i j ↔
      ((0 ≤ k ∧ k < size) ∧ (0 ≤ l ∧ l < size)) ∧
        (|k - i| ≤ 1 ∧ |l - j| ≤ 1 ∧ (k, l) ≠ (i, j)) := by
  unfold neighbours
  rw [List.mem_filter, List.pair_mem_product, mem_intRange, mem_intRange, decide_eq_true_eq]

theorem nodup_neighbours (size i j : Int) : (neighbours size i j).Nodup :=
  List.Nodup.filter _ (List.Nodup.product (nodup_intRange _ _) (nodup_intRange _ _))

/-- Inside the grid, the cells `adjacent_to` visits are the cell itself and its
neighbours. -/
theorem window_perm (size i j : Int) (hi0 : 0 ≤ i) (hi : i < size) (hj0 : 0 ≤ j)
    (hj : j < size) : List.Perm (window size i j) ((i, j) :: neighbours size i j) := by
  have hnot : (i, j) ∉ neighbours size i j := by
    rw [mem_neighbours]
    simp
  rw [List.perm_ext_iff_of_nodup (nodup_window _ _ _)
    (List.nodup_cons.2 ⟨hnot, nodup_neighbours _ _ _⟩)]
  rintro ⟨k, l⟩
  rw [List.mem_cons, mem_window, mem_neighbours, abs_le, abs_le, Ne, Prod.mk.injEq]
  unfold windowLo windowHi
  split <;> split <;> split <;> split <;> omega

theorem length_window (size i j : Int) :
    (window size i j).length
      = (windowHi size i + 1 - windowLo i).toNat * (windowHi size j + 1 - windowLo j).toNat := by
  unfold window
  have h := List.length_product (intRange (windowLo i) (windowHi size i + 1))
    (intRange (windowLo j) (windowHi size j + 1))
  rw [length_intRange, length_intRange] at h
  exact h

theorem sum_binary (board : Board) (hb : Binary board) (cells : List (Int × Int)) :
    (cells.map (fun c => (cellVal board c.1 c.2 : Int))).sum
      = ((cells.filter (fun c => decide (cellAt board c.1 c.2 = some 1))).length : Int) := by
  induction cells with
  | nil => simp
  | cons c rest ih =>
    rw [List.map_cons, List.sum_cons, ih, List.filter_cons]
    cases hc : cellAt board c.1 c.2 with
    | none => simp [cellVal, hc]
    | some v =>
      rcases cellAt_binary hb hc with rfl | rfl
      · simp [cellVal, hc]
      · simp [cellVal, hc]
        ring

/-- Inside a square board of cells 0 or 1, `adjacent_to` returns the number of
alive neighbours. -/
theorem adjacent_to_count {board : Board} {size i j : Int} (hs : HasShape board size size)
    (hb : Binary board) (hi0 : 0 ≤ i) (hi : i < size) (hj0 : 0 ≤ j) (hj : j < size) :
    adjacent_to board size i j = some (alive_neighbours board size i j : Int) := by
  rw [adjacent_to_eq hs hi0 ((windowHi_bounds size i).2.2 hi) hj0
    ((windowHi_bounds size j).2.2 hj), sum_binary board hb]
  have hp := ((window_perm size i j hi0 hi hj0 hj).filter
    (fun c => decide (cellAt board c.1 c.2 = some 1))).length_eq
  rw [hp, List.filter_cons]
  obtain ⟨v, hv⟩ := cellAt_some_of_shape hs hi0 hi hj0 hj
  unfold alive_neighbours
  rcases cellAt_binary hb hv with rfl | rfl
  · simp [cellVal, hv]
  · simp [cellVal, hv]

/-- The number of neighbours of a cell of the grid, from the extent of its
clamped window. -/
theorem length_neighbours (size i j : Int) (hi0 : 0 ≤ i) (hi : i < size) (hj0 : 0 ≤ j)
    (hj : j < size) :
    (neighbours size i j).length + 1
      = (windowHi size i + 1 - windowLo i).toNat * (windowHi size j + 1 - windowLo j).toNat := by
  rw [← length_window, (window_perm size i j hi0 hi hj0 hj).length_eq, List.length_cons]

theorem corner_neighbours (size i j : Int) (h2 : 2 ≤ size) (hc : IsCorner size i j) :
    (neighbours size i j).length = 3 := by
  obtain ⟨hi, hj⟩ := hc
  have h := length_neighbours size i j (by omega) (by omega) (by omega) (by omega)
  have e1 : (windowHi size i + 1 - windowLo i).toNat = 2 := by
    unfold windowHi windowLo
    split <;> split <;> omega
  have e2 : (windowHi size j + 1 - windowLo j).toNat = 2 := by
    unfold windowHi windowLo
    split <;> split <;> omega
  rw [e1, e2] at h
  omega

theorem single_cell_neighbours (size i j : Int) (hi0 : 0 ≤ i) (hi : i < size) (hj0 : 0 ≤ j)
    (hj : j < size) (h1 : size = 1) : (neighbours size i j).length = 0 := by
  have h := length_neighbours size i j hi0 hi hj0 hj
  have e1 : (windowHi size i + 1 - windowLo i).toNat = 1 := by
    unfold windowHi windowLo
    split <;> split <;> omega
  have e2 : (windowHi size j + 1 - windowLo j).toNat = 1 := by
    unfold windowHi windowLo
    split <;> split <;> omega
  rw [e1, e2] at h
  omega

theorem edge_neighbours (size i j : Int) (he : IsEdge size i j) (hc : ¬ IsCorner size i j) :
    (neighbours size i j).length = 5 := by
  obtain ⟨hi0, hi, hj0, hj, hedge⟩ := he
  have h := length_neighbours size i j hi0 hi hj0 hj
  have hc2 : ¬ ((i = 0 ∨ i = size - 1) ∧ (j = 0 ∨ j = size - 1)) := hc
  have e : (windowHi size i + 1 - windowLo i).toNat = 2
        ∧ (windowHi size j + 1 - windowLo j).toNat = 3
      ∨ (windowHi size i + 1 - windowLo i).toNat = 3
        ∧ (windowHi size j + 1 - windowLo j).toNat = 2 := by
    unfold windowHi windowLo
    split <;> split <;> split <;> split <;> omega
  rcases e with ⟨e1, e2⟩ | ⟨e1, e2⟩ <;> rw [e1, e2] at h <;> omega

/-! ## The band sizes of `master` -/

/-- With `size > 0` and `1 ≤ W ≤ size` workers (`W + 1` processes), the setup of
`master` returns `lines = size / W`, `reminder = size % W` and
`last = lines + reminder`. -/
theorem master_setup_workers (size W : Int) (hsize : 0 < size) (hW1 : 1 ≤ W) (hW : W ≤ size) :
    ∃ s, master_setup size (W + 1) = some s ∧ s.num_proc = W + 1 ∧
      s.lines = size / W ∧ s.reminder = size % W ∧ s.last = s.lines + s.reminder ∧
      1 ≤ s.lines ∧ 0 ≤ s.reminder ∧ s.reminder < W ∧ W * s.lines + s.reminder = size := by
  have hne : ¬ (W + 1 - 1 = 0) := by omega
  have hclamp : ¬ (W + 1 > size + 1) := by omega
  have hdiv : Int.tdiv size (W + 1 - 1) = size / W := by
    rw [show W + 1 - 1 = W by ring]
    exact Int.tdiv_eq_ediv (by omega) (by omega)
  have hmod : Int.tmod size (W + 1 - 1) = size % W := by
    rw [show W + 1 - 1 = W by ring]
    exact Int.tmod_eq_emod (by omega) (by omega)
  have hsum : W * (size / W) + size % W = size := Int.ediv_add_emod size W
  have hr0 : 0 ≤ size % W := Int.emod_nonneg _ (by omega)
  have hr1 : size % W < W := Int.emod_lt_of_pos _ (by omega)
  have hl : 1 ≤ size / W := by
    by_contra hcon
    have : W * (size / W) ≤ 0 := by nlinarith
    omega
  refine ⟨⟨W + 1, size / W, size % W, size / W + size % W⟩, ?_, rfl, rfl, rfl, rfl, hl, hr0,
    hr1, hsum⟩
  unfold master_setup
  simp only [if_neg hclamp, if_neg hne, hdiv, hmod]

theorem band_height_eq (s : Setup) (W : Int) (w : Nat) (hnp : s.num_proc = W + 1) :
    band_height s w = if (w : Int) + 1 = W then s.last else s.lines := by
  unfold band_height slave_lines
  rw [hnp, show W + 1 - 1 = W by ring]

theorem band_start_succ (s : Setup) (w : Nat) :
    band_start s (w + 1) = band_start s w + band_height s w := by
  unfold band_start
  rw [List.range_succ, List.map_append, List.sum_append]
  simp

theorem band_start_eq (s : Setup) (W : Int) (hnp : s.num_proc = W + 1) :
    ∀ w : Nat, (w : Int) < W → band_start s w = (w : Int) * s.lines := by
  intro w
  induction w with
  | zero => intro _; simp [band_start]
  | succ n ih =>
    intro h
    have hn : (n : Int) + 1 < W := by push_cast at h; exact h
    rw [band_start_succ, ih (by omega), band_height_eq s W n hnp, if_neg (by omega)]
    push_cast
    ring

theorem band_end_eq (s : Setup) (W : Int) (hnp : s.num_proc = W + 1) (w : Nat)
    (hw : (w : Int) < W) :
    band_end s w = (w : Int) * s.lines + if (w : Int) + 1 = W then s.last else s.lines := by
  unfold band_end
  rw [band_start_eq s W hnp w hw, band_height_eq s W w hnp]

theorem band_start_zero_iff (s : Setup) (W : Int) (hnp : s.num_proc = W + 1)
    (hl : 1 ≤ s.lines) (w : Nat) (hw : (w : Int) < W) : band_start s w = 0 ↔ w = 0 := by
  rw [band_start_eq s W hnp w hw]
  constructor
  · intro h
    by_contra hne
    have h1 : (1 : Int) ≤ (w : Int) := by omega
    nlinarith
  · rintro rfl
    simp

theorem band_end_le (s : Setup) (W : Int) (hnp : s.num_proc = W + 1) (hl : 1 ≤ s.lines)
    (v w : Nat) (hvw : v < w) (hw : (w : Int) < W) : band_end s v ≤ band_start s w := by
  rw [band_end_eq s W hnp v (by omega), band_start_eq s W hnp w hw, if_neg (by omega)]
  have h1 : (v : Int) + 1 ≤ (w : Int) := by omega
  nlinarith

theorem band_end_last (s : Setup) (size W : Int) (hnp : s.num_proc = W + 1)
    (hlast : s.last = s.lines + s.reminder) (hsum : W * s.lines + s.reminder = size)
    (w : Nat) (hw : (w : Int) + 1 = W) : band_end s w = size := by
  rw [band_end_eq s W hnp w (by omega), if_pos hw, hlast]
  have h1 : (w : Int) = W - 1 := by omega
  rw [h1]
  linarith

theorem band_end_lt (s : Setup) (size W : Int) (hnp : s.num_proc = W + 1)
    (hl : 1 ≤ s.lines) (hr : 0 ≤ s.reminder) (hsum : W * s.lines + s.reminder = size)
    (w : Nat) (hw : (w : Int) + 1 < W) : band_end s w < size := by
  rw [band_end_eq s W hnp w (by omega), if_neg (by omega)]
  nlinarith

theorem band_end_size_iff (s : Setup) (size W : Int) (hnp : s.num_proc = W + 1)
    (hl : 1 ≤ s.lines) (hr : 0 ≤ s.reminder) (hlast : s.last = s.lines + s.reminder)
    (hsum : W * s.lines + s.reminder = size) (w : Nat) (hw : (w : Int) < W) :
    band_end s w = size ↔ (w : Int) + 1 = W := by
  constructor
  · intro h
    by_contra hne
    have := band_end_lt s size W hnp hl hr hsum w (by omega)
    omega
  · exact band_end_last s size W hnp hlast hsum w

/-- Every row of `[0, size)` lies in the band of some worker. -/
theorem band_cover (s : Setup) (size W : Int) (hnp : s.num_proc = W + 1)
    (hW1 : 1 ≤ W) (hl : 1 ≤ s.lines) (hlast : s.last = s.lines + s.reminder)
    (hsum : W * s.lines + s.reminder = size) (r : Int) (hr0 : 0 ≤ r) (hr : r < size) :
    ∃ w : Nat, (w : Int) < W ∧ band_start s w ≤ r ∧ r < band_end s w := by
  have hq1 : r / s.lines * s.lines ≤ r := Int.ediv_mul_le r (by omega)
  have hq2 : r < (r / s.lines + 1) * s.lines := Int.lt_ediv_add_one_mul_self r (by omega)
  have hq0 : 0 ≤ r / s.lines := Int.ediv_nonneg hr0 (by omega)
  by_cases hq : r / s.lines + 1 < W
  · refine ⟨(r / s.lines).toNat, by omega, ?_, ?_⟩
    · rw [band_start_eq s W hnp _ (by omega), Int.toNat_of_nonneg hq0]
      exact hq1
    · rw [band_end_eq s W hnp _ (by omega), Int.toNat_of_nonneg hq0, if_neg (by omega)]
      linarith
  · refine ⟨(W - 1).toNat, by omega, ?_, ?_⟩
    · rw [band_start_eq s W hnp _ (by omega), Int.toNat_of_nonneg (by omega)]
      have h1 : W - 1 ≤ r / s.lines := by omega
      nlinarith
    · rw [band_end_last s size W hnp hlast hsum _ (by omega)]
      exact hr

/-- C3: for `size > 0` and `1 ≤ W ≤ size` workers, `master` computes
`lines = size / W`, `reminder = size % W` and `last = lines + reminder`; the
bands laid end to end in rank order, `lines` rows for each of the first `W-1`
workers and `lines + reminder` rows for the last one, start at row 0, follow
one another without gap, end at row `size`, and every row of `[0, size)` lies in
exactly one band: `(W-1)*lines + (lines + reminder) = size`. -/
theorem bands_partition (size W : Int) (hsize : 0 < size) (hW1 : 1 ≤ W) (hW : W ≤ size) :
    ∃ s, master_setup size (W + 1) = some s ∧
      s.lines = size / W ∧ s.reminder = size % W ∧ s.last = s.lines + s.reminder ∧
      (W - 1) * s.lines + (s.lines + s.reminder) = size ∧
      (∀ w : Nat, (w : Int) < W →
        band_height s w = if (w : Int) + 1 < W then s.lines else s.lines + s.reminder) ∧
      band_start s 0 = 0 ∧
      (∀ w : Nat, (w : Int) + 1 < W → band_start s (w + 1) = band_end s w) ∧
      (∀ w : Nat, (w : Int) + 1 = W → band_end s w = size) ∧
      (∀ w : Nat, (w : Int) < W → ∀ r : Int, band_start s w ≤ r → r < band_end s w →
        0 ≤ r ∧ r < size) ∧
      (∀ r : Int, 0 ≤ r → r < size →
        ∃ w : Nat, (w : Int) < W ∧ (band_start s w ≤ r ∧ r < band_end s w) ∧
          ∀ v : Nat, (v : Int) < W → band_start s v ≤ r → r < band_end s v → v = w) := by
  obtain ⟨s, hs, hnp, hlines, hrem, hlast, hl, hr0, hr1, hsum⟩ :=
    master_setup_workers size W hsize hW1 hW
  refine ⟨s, hs, hlines, hrem, hlast, by linarith, ?_, by simp [band_start], ?_, ?_, ?_, ?_⟩
  · intro w hw
    rw [band_height_eq s W w hnp, hlast]
    by_cases h : (w : Int) + 1 = W
    · rw [if_pos h, if_neg (by omega)]
    · rw [if_neg h, if_pos (by omega)]
  · intro w _
    rw [band_start_succ]
    rfl
  · exact band_end_last s size W hnp hlast hsum
  · intro w hw r h1 h2
    have h3 : 0 ≤ band_start s w := by
      rw [band_start_eq s W hnp w hw]
      positivity
    have h4 : band_end s w ≤ size := by
      by_cases h : (w : Int) + 1 = W
      · exact le_of_eq (band_end_last s size W hnp hlast hsum w h)
      · exact le_of_lt (band_end_lt s size W hnp hl hr0 hsum w (by omega))
    omega
  · intro r hr0' hr
    obtain ⟨w, hw, h1, h2⟩ := band_cover s size W hnp hW1 hl hlast hsum r hr0' hr
    refine ⟨w, hw, ⟨h1, h2⟩, ?_⟩
    intro v hv h3 h4
    by_contra hne
    rcases Nat.lt_or_gt_of_ne hne with h | h
    · have := band_end_le s W hnp hl v w h hw
      omega
    · have := band_end_le s W hnp hl w v h hv
      omega

/-- C3, at `size = 7` and `W = 3`. -/
theorem bands_partition_witness :
    ∃ s, master_setup 7 (3 + 1) = some s ∧
      s.lines = 7 / 3 ∧ s.reminder = 7 % 3 ∧ s.last = s.lines + s.reminder ∧
      (3 - 1) * s.lines + (s.lines + s.reminder) = 7 ∧
      (∀ w : Nat, (w : Int) < 3 →
        band_height s w = if (w : Int) + 1 < 3 then s.lines else s.lines + s.reminder) ∧
      band_start s 0 = 0 ∧
      (∀ w : Nat, (w : Int) + 1 < 3 → band_start s (w + 1) = band_end s w) ∧
      (∀ w : Nat, (w : Int) + 1 = 3 → band_end s w = 7) ∧
      (∀ w : Nat, (w : Int) < 3 → ∀ r : Int, band_start s w ≤ r → r < band_end s w →
        0 ≤ r ∧ r < 7) ∧
      (∀ r : Int, 0 ≤ r → r < 7 →
        ∃ w : Nat, (w : Int) < 3 ∧ (band_start s w ≤ r ∧ r < band_end s w) ∧
          ∀ v : Nat, (v : Int) < 3 → band_start s v ≤ r → r < band_end s v → v = w) :=
  bands_partition 7 3 (by decide) (by decide) (by decide)

/-- C10, amended: the band sizes `master` computes differ from one another by at
most `reminder = size % W` rows, which is less than `W`; the last band is
exactly `reminder` rows higher than each of the others. -/
theorem band_sizes_differ_by_reminder (size W : Int) (hsize : 0 < size) (hW1 : 1 ≤ W)
    (hW : W ≤ size) :
    ∃ s, master_setup size (W + 1) = some s ∧ s.reminder = size % W ∧ s.reminder < W ∧
      (∀ v w : Nat, (v : Int) < W → (w : Int) < W →
        |band_height s v - band_height s w| ≤ s.reminder) ∧
      (∀ v w : Nat, (v : Int) + 1 < W → (w : Int) + 1 = W →
        band_height s w - band_height s v = s.reminder) := by
  obtain ⟨s, hs, hnp, _, hrem, hlast, _, hr0, hr1, _⟩ :=
    master_setup_workers size W hsize hW1 hW
  refine ⟨s, hs, hrem, hr1, ?_, ?_⟩
  · intro v w _ _
    rw [band_height_eq s W v hnp, band_height_eq s W w hnp, abs_le, hlast]
    split <;> split <;> omega
  · intro v w hv hw
    rw [band_height_eq s W v hnp, band_height_eq s W w hnp, if_pos hw, if_neg (by omega),
      hlast]
    omega

/-- C10, amended, at `size = 5` and `W = 3`. -/
theorem band_sizes_differ_by_reminder_witness :
    ∃ s, master_setup 5 (3 + 1) = some s ∧ s.reminder = 5 % 3 ∧ s.reminder < 3 ∧
      (∀ v w : Nat, (v : Int) < 3 → (w : Int) < 3 →
        |band_height s v - band_height s w| ≤ s.reminder) ∧
      (∀ v w : Nat, (v : Int) + 1 < 3 → (w : Int) + 1 = 3 →
        band_height s w - band_height s v = s.reminder) :=
  band_sizes_differ_by_reminder 5 3 (by decide) (by decide) (by decide)

/-- C10 as stated fails at `size = 5`, `W = 3`: `lines = 1`, `reminder = 2`,
`last = 3`, so the first and the last band differ by two rows. -/
theorem band_sizes_differ_by_two :
    master_setup 5 (3 + 1) = some ⟨4, 1, 2, 3⟩ ∧
      band_height ⟨4, 1, 2, 3⟩ 0 = 1 ∧ band_height ⟨4, 1, 2, 3⟩ 2 = 3 ∧
      ¬ (|band_height ⟨4, 1, 2, 3⟩ 2 - band_height ⟨4, 1, 2, 3⟩ 0| ≤ 1) := by
  decide

/-! ## The configuration checks of `master` -/

/-- C8, amended: `master` checks neither `size` nor the worker count before it
divides.  With `size ≤ 0` or no worker, the division `size/(num_proc-1)` is by
zero exactly when `size = 0`, or `size > 0` and there is a single process; with
`size < 0` the clamp gives `num_proc = size + 1` and the setup completes with
`lines = 1`, `reminder = 0` and `last = 1`. -/
theorem master_setup_unchecked (size comm_size : Int) (hcomm : 1 ≤ comm_size)
    (hbad : size ≤ 0 ∨ comm_size - 1 ≤ 0) :
    (master_setup size comm_size = none ↔ (size = 0 ∨ (0 < size ∧ comm_size = 1))) ∧
      (size < 0 → master_setup size comm_size = some ⟨size + 1, 1, 0, 1⟩) := by
  unfold master_setup
  constructor
  · constructor
    · intro h
      by_contra hcon
      have hneg : size < 0 := by omega
      have h1 : comm_size > size + 1 := by omega
      simp only [if_pos h1] at h
      rw [if_neg (by omega)] at h
      exact absurd h (by simp)
    · intro h
      by_cases h1 : comm_size > size + 1
      · simp only [if_pos h1]
        rw [if_pos (by omega)]
      · simp only [if_neg h1]
        rw [if_pos (by omega)]
  · intro hneg
    have h1 : comm_size > size + 1 := by omega
    have h2 : size ≠ 0 := by omega
    simp only [if_pos h1]
    rw [if_neg (by omega), show size + 1 - 1 = size by ring, Int.tdiv_self h2, Int.tmod_self]
    rfl

/-- C8, amended, at `size = -2` with two processes. -/
theorem master_setup_unchecked_witness :
    (master_setup (-2) 2 = none ↔ ((-2 : Int) = 0 ∨ (0 < (-2 : Int) ∧ (2 : Int) = 1))) ∧
      ((-2 : Int) < 0 → master_setup (-2) 2 = some ⟨-2 + 1, 1, 0, 1⟩) :=
  master_setup_unchecked (-2) 2 (by decide) (by decide)

/-- C8 as stated fails at `size = -2` with two processes (one worker): the setup
of `master` does not fail, it computes `lines = 1`, `reminder = 0`, `last = 1`. -/
theorem master_setup_negative_size :
    ¬ (∀ size comm_size : Int, size ≤ 0 ∨ comm_size - 1 ≤ 0 →
        master_setup size comm_size = none) ∧
      master_setup (-2) 2 = some ⟨-1, 1, 0, 1⟩ := by
  refine ⟨fun h => ?_, by decide⟩
  have h1 := h (-2) 2 (by decide)
  exact absurd h1 (by decide)

/-! ## The kernel -/

/-- C1: on boards of `rows` rows of `size` cells that contain the rows
`start .. end-1` and the rows read around them, with the cells of `board` 0 or
1, `play(board, newboard, size, lines, start, end)` returns and, for every cell
`(i, j)` with `start ≤ i < end` and `0 ≤ j < size`, `newboard[i][j]` is 1 if
`adjacent_to(board, size, i, j) == 3`, or `board[i][j] == 1` and
`adjacent_to(board, size, i, j) == 2`, and 0 otherwise. -/
theorem play_rule (board newboard : Board) (rows size lines start end_ : Int)
    (hb : HasShape board rows size) (hbin : Binary board)
    (hn : HasShape newboard rows size) (hstart : 0 ≤ start) (hend : end_ ≤ rows)
    (hclamp : end_ < size → end_ < rows) :
    ∃ nb, play board newboard size lines start end_ = some nb ∧
      ∀ i j : Int, start ≤ i → i < end_ → 0 ≤ j → j < size →
        ∃ (a : Int) (v : Nat), adjacent_to board size i j = some a ∧
          cellAt board i j = some v ∧
          cellAt nb i j = some (if a = 3 ∨ (v = 1 ∧ a = 2) then 1 else 0) := by
  obtain ⟨nb, e, _, hin, _⟩ := play_spec lines start end_ hb hn hstart hend hclamp
  refine ⟨nb, e, ?_⟩
  intro i j h1 h2 h3 h4
  obtain ⟨a, v, ha, hv, hnew⟩ := hin i j h1 h2 h3 h4
  refine ⟨a, v, ha, hv, ?_⟩
  rw [hnew]
  rcases cellAt_binary hbin hv with rfl | rfl
  · by_cases h2 : a = 2
    · simp [h2]
    · by_cases h3 : a = 3 <;> simp [h2, h3]
  · by_cases h2 : a = 2
    · simp [h2]
    · by_cases h3 : a = 3 <;> simp [h2, h3]

/-- C1, on a 3 x 3 board holding a blinker. -/
theorem play_rule_witness :
    ∃ nb, play [[0, 0, 0], [1, 1, 1], [0, 0, 0]] [[0, 0, 0], [0, 0, 0], [0, 0, 0]] 3 3 0 3
        = some nb ∧
      ∀ i j : Int, 0 ≤ i → i < 3 → 0 ≤ j → j < 3 →
        ∃ (a : Int) (v : Nat),
          adjacent_to [[0, 0, 0], [1, 1, 1], [0, 0, 0]] 3 i j = some a ∧
          cellAt [[0, 0, 0], [1, 1, 1], [0, 0, 0]] i j = some v ∧
          cellAt nb i j = some (if a = 3 ∨ (v = 1 ∧ a = 2) then 1 else 0) :=
  play_rule [[0, 0, 0], [1, 1, 1], [0, 0, 0]] [[0, 0, 0], [0, 0, 0], [0, 0, 0]] 3 3 3 0 3
    ⟨by decide, by decide⟩ (by unfold Binary; decide) ⟨by decide, by decide⟩ (by decide)
    (by decide) (by decide)

/-- C2, amended: inside a `size` x `size` board of cells 0 or 1, `adjacent_to`
returns the number of alive cells `(k, l)` of the grid with `|k - i| ≤ 1`,
`|l - j| ≤ 1` and `(k, l) ≠ (i, j)`; the window is clipped at the grid edges, so
a corner cell is counted over 3 neighbours when `size ≥ 2` (over none when
`size = 1`) and a non-corner edge cell over 5. -/
theorem adjacent_to_counts_neighbours (size : Int) (board : Board) (i j : Int)
    (hs : HasShape board size size) (hbin : Binary board)
    (hi0 : 0 ≤ i) (hi : i < size) (hj0 : 0 ≤ j) (hj : j < size) :
    adjacent_to board size i j = some (alive_neighbours board size i j : Int) ∧
      (∀ k l : Int, (k, l) ∈ neighbours size i j ↔
        ((0 ≤ k ∧ k < size) ∧ (0 ≤ l ∧ l < size)) ∧
          (|k - i| ≤ 1 ∧ |l - j| ≤ 1 ∧ (k, l) ≠ (i, j))) ∧
      (2 ≤ size → IsCorner size i j → (neighbours size i j).length = 3) ∧
      (size = 1 → (neighbours size i j).length = 0) ∧
      (IsEdge size i j → ¬ IsCorner size i j → (neighbours size i j).length = 5) :=
  ⟨adjacent_to_count hs hbin hi0 hi hj0 hj, mem_neighbours size i j,
    corner_neighbours size i j, single_cell_neighbours size i j hi0 hi hj0 hj,
    edge_neighbours size i j⟩

/-- C2, amended, at the corner `(0, 0)` of a 3 x 3 board. -/
theorem adjacent_to_counts_neighbours_witness :
    adjacent_to [[0, 1, 0], [1, 1, 0], [0, 0, 0]] 3 0 0
        = some (alive_neighbours [[0, 1, 0], [1, 1, 0], [0, 0, 0]] 3 0 0 : Int) ∧
      (∀ k l : Int, (k, l) ∈ neighbours 3 0 0 ↔
        ((0 ≤ k ∧ k < 3) ∧ (0 ≤ l ∧ l < 3)) ∧
          (|k - 0| ≤ 1 ∧ |l - 0| ≤ 1 ∧ (k, l) ≠ (0, 0))) ∧
      (2 ≤ (3 : Int) → IsCorner 3 0 0 → (neighbours 3 0 0).length = 3) ∧
      ((3 : Int) = 1 → (neighbours 3 0 0).length = 0) ∧
      (IsEdge 3 0 0 → ¬ IsCorner 3 0 0 → (neighbours 3 0 0).length = 5) :=
  adjacent_to_counts_neighbours 3 [[0, 1, 0], [1, 1, 0], [0, 0, 0]] 0 0
    ⟨by decide, by decide⟩ (by unfold Binary; decide) (by decide) (by decide) (by decide)
    (by decide)

/-- C2 as stated fails at `size = 1`: the only cell `(0, 0)` is a corner, its
clamped window holds the cell alone, and it is counted over 0 neighbours, not
3. -/
theorem corner_of_one_cell_grid :
    IsCorner 1 0 0 ∧ window 1 0 0 = [(0, 0)] ∧ (neighbours 1 0 0).length = 0 ∧
      adjacent_to [[1]] 1 0 0 = some 0 ∧
      ¬ (∀ size i j : Int, 0 < size → IsCorner size i j →
          (neighbours size i j).length = 3) := by
  refine ⟨by unfold IsCorner; decide, by decide, by decide, by decide, fun h => ?_⟩
  have h1 := h 1 0 0 (by decide) (by unfold IsCorner; decide)
  exact absurd h1 (by decide)

/-! ## The code at the inputs where it leaves the specification -/

/-- C4, the code at `size = 4` with two workers (`lines = 2`): the band of the
last worker (rank 2) is `[2, 4)`, so the range of the claim is `[1, 4)`, and
the `MPI_Isend` addressed to rank 2 starts at row 4 and counts 3 rows. -/
theorem master_sends_last_worker :
    master_setup 4 3 = some ⟨3, 2, 0, 2⟩ ∧
      (band_start ⟨3, 2, 0, 2⟩ 1, band_end ⟨3, 2, 0, 2⟩ 1) = (2, 4) ∧
      (max 0 (band_start ⟨3, 2, 0, 2⟩ 1 - 1), min 4 (band_end ⟨3, 2, 0, 2⟩ 1 + 1)) = (1, 4) ∧
      master_sends 4 ⟨3, 2, 0, 2⟩ = [⟨1, 0, 12⟩, ⟨2, 4, 12⟩] ∧
      (transfers_of 2 (master_sends 4 ⟨3, 2, 0, 2⟩)).map (row_range 4) = [(4, 7)] := by
  decide

/-- C5, the code at `size = 4` with two workers (`lines = 2`): the tile of the
first worker holds its band in rows 0 and 1, the tile of the last worker in rows
1 and 2, and `play(prev, next, size, lines+2, 1, lines)` visits row 1 only; on
the tile of the first worker read as rows, it writes row 1 and leaves rows 0
and 2 of `next` as they were (here marked 7). -/
theorem slave_step_misses_own_row :
    master_setup 4 3 = some ⟨3, 2, 0, 2⟩ ∧
      own_rows ⟨3, 2, 0, 2⟩ 0 = [0, 1] ∧ play_rows 4 1 (slave_lines ⟨3, 2, 0, 2⟩ 3 1) = [1] ∧
      own_rows ⟨3, 2, 0, 2⟩ 1 = [1, 2] ∧ play_rows 4 1 (slave_lines ⟨3, 2, 0, 2⟩ 3 2) = [1] ∧
      play [[1, 1, 0, 0], [1, 0, 0, 0], [0, 0, 0, 0]]
          [[7, 7, 7, 7], [7, 7, 7, 7], [7, 7, 7, 7]] 4 (slave_lines ⟨3, 2, 0, 2⟩ 3 1 + 2) 1
          (slave_lines ⟨3, 2, 0, 2⟩ 3 1)
        = some [[7, 7, 7, 7], [1, 1, 0, 0], [7, 7, 7, 7]] := by
  decide

/-- C6, the code at `size = 4` with two workers (`lines = 2`): each worker sends
back `(lines+2)*size = 16` cells, 4 rows, and `master` receives rank 1 into rows
`[0, 3)` and rank 2 into rows `[4, 7)`, while the bands are `[0, 2)` and
`[2, 4)`. -/
theorem collect_ranges :
    master_setup 4 3 = some ⟨3, 2, 0, 2⟩ ∧
      (band_start ⟨3, 2, 0, 2⟩ 0, band_end ⟨3, 2, 0, 2⟩ 0) = (0, 2) ∧
      (band_start ⟨3, 2, 0, 2⟩ 1, band_end ⟨3, 2, 0, 2⟩ 1) = (2, 4) ∧
      slave_send_count 4 (slave_lines ⟨3, 2, 0, 2⟩ 3 1) = 4 * 4 ∧
      slave_send_count 4 (slave_lines ⟨3, 2, 0, 2⟩ 3 2) = 4 * 4 ∧
      (transfers_of 1 (master_recvs 4 ⟨3, 2, 0, 2⟩)).map (row_range 4) = [(0, 3)] ∧
      (transfers_of 2 (master_recvs 4 ⟨3, 2, 0, 2⟩)).map (row_range 4) = [(4, 7)] := by
  decide

/-- C7, the code at `size = 3`, one worker, one generation, on a blinker: the
sequential kernel gives the vertical blinker; the call
`play(prev, next, size, lines+2, 1, lines)` of the worker, on its tile read as
rows, writes rows 1 and 2 of `next` and leaves row 0 as it was (here marked 7),
and `master` receives from rank 1 into rows `[0, 4)` and `[3, 7)`. -/
theorem single_worker_row_zero :
    sequential 3 1 [[0, 0, 0], [1, 1, 1], [0, 0, 0]]
        = some [[0, 1, 0], [0, 1, 0], [0, 1, 0]] ∧
      master_setup 3 2 = some ⟨2, 3, 0, 3⟩ ∧
      play [[0, 0, 0], [1, 1, 1], [0, 0, 0], [7, 7, 7], [7, 7, 7]]
          [[7, 7, 7], [7, 7, 7], [7, 7, 7], [7, 7, 7], [7, 7, 7]] 3
          (slave_lines ⟨2, 3, 0, 3⟩ 2 1 + 2) 1 (slave_lines ⟨2, 3, 0, 3⟩ 2 1)
        = some [[7, 7, 7], [0, 1, 0], [0, 1, 0], [7, 7, 7], [7, 7, 7]] ∧
      (transfers_of 1 (master_recvs 3 ⟨2, 3, 0, 3⟩)).map (row_range 3) = [(0, 4), (3, 7)] := by
  decide

end GolMpi
